import Mathlib

/-!
Shallow embedding of the Dadi-Corpus-Segmentation scripts.

Sentences, words and reference strings are `List Char`; a segmentation is a
`List (List Char)`; the dictionary is a `List (List Char)` used only for
membership tests (Python uses a set, whose only observable behaviour here
is membership); a variant-group table is a `List (List Char)` (each group
being one raw group string from the pipe-delimited file).
-/

namespace Dadi

/-- ASCII whitespace as recognised by the Python method `str.split()`
(modelled over the ASCII whitespace characters; the corpus scripts never
put other whitespace in variant groups or annotations). -/
def isWs (c : Char) : Bool :=
  c == ' ' || c == '\t' || c == '\n' || c == '\r' || c == '\x0b' || c == '\x0c'

/-- Transcribed from the inner loop of `fmm_segmentation`
(`01_FMM_segmentation.py` lines 36-46, shared verbatim by
`02_RMM_segmentation.py`): the list of variant characters for one
character `c`.  If `c` occurs in no group string the result is `[c]`;
otherwise it is the deduplicated list of all non-whitespace characters of
every group string containing `c` (the source does
`for v in variants.split(): char_variants_list.extend(v)` and then
`list(set(...))`). -/
def charVariants (variant_lst : List (List Char)) (c : Char) : List Char :=
  if variant_lst.any (fun s => s.contains c) then
    (((variant_lst.filter (fun s => s.contains c)).map
        (fun g => g.filter (fun x => !isWs x))).flatten).dedup
  else [c]

/-- Transcribed from `generate_combinations` in `01_FMM_segmentation.py`
lines 14-19: the Cartesian product of the per-character variant lists,
each combination joined into one candidate string. -/
def generate_combinations : List (List Char) → List (List Char)
  | [] => [[]]
  | l :: ls => l.flatMap (fun c => (generate_combinations ls).map (fun rest => c :: rest))

/-- Dictionary test shared by both scanners: in the source,
`any(combination in dictionary_set for combination in combinations)` over
`combinations = list(generate_combinations(word_variants_list))`, where
`word_variants_list` holds the variant characters of each character of
`word`. -/
def matchesDict (dictionary_set variant_lst : List (List Char))
    (word : List Char) : Bool :=
  (generate_combinations (word.map (charVariants variant_lst))).any
    (fun comb => dictionary_set.contains comb)

/-- Transcribed from the `while start < len(words)` loop of
`fmm_segmentation` (`01_FMM_segmentation.py` lines 30-62).  `rest` is the
suffix `words[start:]` and `curLen` is `current_length`.  In the source,
when `max_word_length = 0` and the empty string is in the dictionary the
loop never terminates; the `curLen = 0` equation below takes the only
other behaviour the source can exhibit at `curLen = 0` (the
single-character fallback), which agrees with the source whenever the
source terminates, and is never reached when `max_word_length ≥ 1`. -/
def fmmAux (dictionary_set variant_lst : List (List Char)) (maxLen : Nat) :
    List Char → Nat → List (List Char)
  | [], _ => []
  | c :: rest, 0 => [c] :: fmmAux dictionary_set variant_lst maxLen rest maxLen
  | c :: rest, k + 1 =>
    if matchesDict dictionary_set variant_lst (c :: rest.take k) then
      (c :: rest.take k) :: fmmAux dictionary_set variant_lst maxLen (rest.drop k) maxLen
    else if k ≤ 1 then
      [c] :: fmmAux dictionary_set variant_lst maxLen rest maxLen
    else
      fmmAux dictionary_set variant_lst maxLen (c :: rest) k
  termination_by xs n => (xs.length, n)

/-- Transcribed from `fmm_segmentation` in `01_FMM_segmentation.py` lines
22-63: forward maximum matching with variant character handling. -/
def fmm_segmentation (sentence : List Char)
    (dictionary_set variant_lst : List (List Char)) (max_word_length : Nat) :
    List (List Char) :=
  fmmAux dictionary_set variant_lst max_word_length sentence max_word_length

/-- Transcribed from the `while end > 0` loop of `rmm_segmentation`
(`02_RMM_segmentation.py` lines 14-50).  `pre` is the prefix `words[:end]`
and `curLen` is `current_length`; the source first clamps
`current_length = end` when `end < current_length` (here
`min (k + 1) (c :: cs).length`), takes the window
`words[end-current_length:end]`, and prepends accepted words.  As for
`fmmAux`, the `curLen = 0` equation covers a state the source only
reaches when `max_word_length = 0`. -/
def rmmAux (dictionary_set variant_lst : List (List Char)) (maxLen : Nat) :
    List Char → Nat → List (List Char)
  | [], _ => []
  | c :: cs, 0 =>
    rmmAux dictionary_set variant_lst maxLen (c :: cs).dropLast maxLen
      ++ [[(c :: cs).getLast (by simp)]]
  | c :: cs, k + 1 =>
    if matchesDict dictionary_set variant_lst
        ((c :: cs).drop ((c :: cs).length - min (k + 1) (c :: cs).length)) then
      rmmAux dictionary_set variant_lst maxLen
          ((c :: cs).take ((c :: cs).length - min (k + 1) (c :: cs).length)) maxLen
        ++ [(c :: cs).drop ((c :: cs).length - min (k + 1) (c :: cs).length)]
    else if min (k + 1) (c :: cs).length - 1 ≤ 1 then
      rmmAux dictionary_set variant_lst maxLen (c :: cs).dropLast maxLen
        ++ [[(c :: cs).getLast (by simp)]]
    else
      rmmAux dictionary_set variant_lst maxLen (c :: cs)
        (min (k + 1) (c :: cs).length - 1)
  termination_by xs n => (xs.length, n)

/-- Transcribed from `rmm_segmentation` in `02_RMM_segmentation.py` lines
6-51: reverse maximum matching with variant character handling. -/
def rmm_segmentation (sentence : List Char)
    (dictionary_set variant_lst : List (List Char)) (max_word_length : Nat) :
    List (List Char) :=
  rmmAux dictionary_set variant_lst max_word_length sentence max_word_length

/-- Holds when the first list occurs character-for-character at the head
of the second. -/
def leadsWith : List Char → List Char → Bool
  | [], _ => true
  | _ :: _, [] => false
  | a :: as, b :: bs => a == b && leadsWith as bs

/-- Semantics of the Python expression `reference_string.count(word)` for
a non-empty `word`: the number of non-overlapping occurrences, scanning
from the left and resuming the search after the end of each match.
(`count_weight` only ever calls it with words of length ≥ 2; for the
empty word, where Python returns `len + 1`, this returns 0 — the value is
never used.) -/
def countOccs : List Char → List Char → Nat
  | [], _ => 0
  | _ :: _, [] => 0
  | w :: ws, c :: rs =>
    if leadsWith (w :: ws) (c :: rs) then
      1 + countOccs (w :: ws) (rs.drop ws.length)
    else
      countOccs (w :: ws) rs
  termination_by _ ref => ref.length

/-- Transcribed from `count_weight` in `03_BMM_tie_break.py` lines 1-11:
sum, over the words of length ≥ 2 of the segmentation, of their
non-overlapping occurrence counts in the reference string. -/
def count_weight (segmented_list : List (List Char)) (reference_string : List Char) :
    Nat :=
  segmented_list.foldl
    (fun weight word =>
      if 2 ≤ word.length then weight + countOccs word reference_string else weight) 0

/-- Transcribed from `max([len(w) for w in res]) if res else 0` in
`03_BMM_tie_break.py` lines 28-29. -/
def maxWordLen (res : List (List Char)) : Nat :=
  (res.map List.length).foldr Nat.max 0

/-- Transcribed from `bmm_tie_break` in `03_BMM_tie_break.py` lines 14-46:
the five-rule cascade choosing between the forward and reverse
segmentations, falling back to the forward one. -/
def bmm_tie_break (f_res r_res : List (List Char)) (str_doc str_all : List Char) :
    List (List Char) :=
  if f_res = r_res then f_res
  else if f_res.length ≠ r_res.length then
    if f_res.length < r_res.length then f_res else r_res
  else if maxWordLen f_res ≠ maxWordLen r_res then
    if maxWordLen f_res > maxWordLen r_res then f_res else r_res
  else if count_weight f_res str_doc ≠ count_weight r_res str_doc then
    if count_weight f_res str_doc > count_weight r_res str_doc then f_res else r_res
  else if count_weight f_res str_all ≠ count_weight r_res str_all then
    if count_weight f_res str_all > count_weight r_res str_all then f_res else r_res
  else f_res

/-- Semantics of the Python expression `s.split(sep)` for a one-character
separator (never returns an empty list; splitting the empty string gives
a list holding one empty string). -/
def splitOnChar (sep : Char) : List Char → List (List Char)
  | [] => [[]]
  | c :: rest =>
    if c = sep then [] :: splitOnChar sep rest
    else
      match splitOnChar sep rest with
      | [] => [[c]]
      | g :: gs => (c :: g) :: gs

/-- Transcribed from `load_variant_dict` in `01_FMM_segmentation.py` lines
4-11 (shared by `02_RMM_segmentation.py`).  The file is modelled as
`none` when absent (where `open` raises `FileNotFoundError`) and
`some lines` when readable; a file with no lines makes
`f.readlines()[0]` raise `IndexError`.  `none` in the result marks the
raising outcomes; otherwise the first line is split on the pipe
character. -/
def load_variant_dict_fmm (file : Option (List (List Char))) :
    Option (List (List Char)) :=
  match file with
  | none => none
  | some [] => none
  | some (line :: _) => some (splitOnChar '|' line)

/-- Semantics of the Python method `str.strip()`: drop leading and
trailing whitespace. -/
def stripEnds (s : List Char) : List Char :=
  ((s.dropWhile isWs).reverse.dropWhile isWs).reverse

/-- Transcribed from `load_variant_dict` in
`09_Fleiss_Kappa_Adjudication.py` lines 14-32: when the file is absent it
warns and returns the empty group list; otherwise the content is split on
the pipe character, each part stripped, and only groups longer than one
character kept. -/
def load_variant_dict_adj (fileExists : Bool) (content : List Char) :
    List (List Char) :=
  if !fileExists then []
  else ((splitOnChar '|' content).map stripEnds).filter (fun g => 1 < g.length)

/-- Semantics of the Python expression `max(group, key=...)` used in
`build_frequency_based_map` (`09_Fleiss_Kappa_Adjudication.py` line 46):
the first element attaining the maximal key.  `none` only on the empty
group, where Python raises; the loader never produces an empty group. -/
def argmaxChar (counts : Char → Nat) : List Char → Option Char
  | [] => none
  | c :: cs => some (cs.foldl (fun best x => if counts x > counts best then x else best) c)

/-- Assignment `variant_map[char] = best` on a Python dict, modelled as an
association list: the newest binding for a key replaces any older one. -/
def vmapInsert (m : List (Char × Char)) (c t : Char) : List (Char × Char) :=
  m.filter (fun p => p.1 ≠ c) ++ [(c, t)]

/-- Lookup `variant_map.get(char, char)`. -/
def vmapGet (m : List (Char × Char)) (c : Char) : Char :=
  match m.lookup c with
  | some t => t
  | none => c

/-- Transcribed from `build_frequency_based_map` in
`09_Fleiss_Kappa_Adjudication.py` lines 35-51: in each group, every
character other than the most frequent one is mapped to the most frequent
one. -/
def build_frequency_based_map (variant_groups : List (List Char))
    (global_char_counts : Char → Nat) : List (Char × Char) :=
  variant_groups.foldl
    (fun m group =>
      match argmaxChar global_char_counts group with
      | none => m
      | some best =>
        (group.filter (fun c => c ≠ best)).foldl (fun m2 c => vmapInsert m2 c best) m)
    []

/-- Character sequence produced by `extract_boundaries`
(`09_Fleiss_Kappa_Adjudication.py` lines 54-76): the text split on
whitespace into tokens, the tokens joined and each character passed
through the variant map — i.e. the non-whitespace characters of the text,
normalized. -/
def normalizedChars (vmap : Char → Char) (t : List Char) : List Char :=
  (t.filter (fun c => !isWs c)).map vmap

/-- Text with segmentation whitespace removed and no normalization
applied. -/
def stripWsAll (t : List Char) : List Char :=
  t.filter (fun c => !isWs c)

/-- Transcribed from
`next((j for j, (a, b) in enumerate(zip(base_chars, chars)) if a != b), -1)`
(`09_Fleiss_Kappa_Adjudication.py` line 131), with the Python value `-1`
modelled as `none`: the first index at which the zipped sequences
differ. -/
def firstDiffIdx : List Char → List Char → Option Nat
  | a :: as, b :: bs =>
    if a ≠ b then some 0 else (firstDiffIdx as bs).map (· + 1)
  | _, _ => none

/-- Alignment loop of `process_annotations`
(`09_Fleiss_Kappa_Adjudication.py` lines 120-138) over the texts after
the base one: the result carries the index into `file_paths` of the first
text whose normalized character sequence differs from the base (where the
`ValueError` is raised), paired with the reported mismatch index. -/
def alignmentErrorAux (vmap : Char → Char) (baseChars : List Char) :
    List (List Char) → Nat → Option (Nat × Option Nat)
  | [], _ => none
  | t :: ts, i =>
    if normalizedChars vmap t ≠ baseChars then
      some (i, firstDiffIdx baseChars (normalizedChars vmap t))
    else alignmentErrorAux vmap baseChars ts (i + 1)

/-- Outcome of the strict alignment verification of
`process_annotations`: `none` when no `ValueError` is raised, otherwise
the file index and reported character index of the first misalignment. -/
def alignmentError (vmap : Char → Char) (texts : List (List Char)) :
    Option (Nat × Option Nat) :=
  match texts with
  | [] => none
  | base :: rest => alignmentErrorAux vmap (normalizedChars vmap base) rest 1

/-- Global character frequencies over all texts with spaces, newlines and
carriage returns removed (`process_annotations` step 1). -/
def globalCounts (texts : List (List Char)) (c : Char) : Nat :=
  (texts.map
    (fun t => (t.filter (fun x => x ≠ ' ' ∧ x ≠ '\n' ∧ x ≠ '\r')).count c)).sum

/-- Alignment part of the adjudication pipeline (`process_annotations`,
`09_Fleiss_Kappa_Adjudication.py` lines 99-138): load the variant groups,
build the frequency-based map, and run the strict alignment check on the
annotator texts. -/
def adjAlignmentError (texts : List (List Char)) (dictExists : Bool)
    (dictContent : List Char) : Option (Nat × Option Nat) :=
  alignmentError
    (vmapGet (build_frequency_based_map
      (load_variant_dict_adj dictExists dictContent) (globalCounts texts)))
    texts

/-!  Helper lemmas shared by several claims. -/

theorem fmmAux_flatten (d v : List (List Char)) (m : Nat) :
    ∀ (rest : List Char) (curLen : Nat),
      (fmmAux d v m rest curLen).flatten = rest := by
  intro rest curLen
  induction rest, curLen using fmmAux.induct d v m <;>
    (simp_all [fmmAux, List.take_append_drop];
     try (split <;> first | (exfalso; omega) | assumption))

theorem rmmAux_flatten (d v : List (List Char)) (m : Nat) :
    ∀ (pre : List Char) (curLen : Nat),
      (rmmAux d v m pre curLen).flatten = pre := by
  intro pre curLen
  induction pre, curLen using rmmAux.induct d v m <;>
    (simp_all [rmmAux, List.take_append_drop, List.dropLast_append_getLast];
     try (split <;> first | (exfalso; omega) | assumption))

theorem fmmAux_word_len (d v : List (List Char)) (m : Nat) :
    ∀ (rest : List Char) (curLen : Nat), 1 ≤ m → curLen ≤ m →
      ∀ w ∈ fmmAux d v m rest curLen, 1 ≤ w.length ∧ w.length ≤ m := by
  intro rest curLen
  induction rest, curLen using fmmAux.induct d v m with
  | case1 x => intro hm hc w hw; simp [fmmAux] at hw
  | case2 c rest ih =>
    intro hm hc w hw
    rw [fmmAux] at hw
    rcases List.mem_cons.mp hw with h | h
    · subst h; simp; omega
    · exact ih hm (le_refl m) w h
  | case3 c rest k hmatch ih =>
    intro hm hc w hw
    rw [fmmAux, if_pos hmatch] at hw
    rcases List.mem_cons.mp hw with h | h
    · subst h; constructor
      · simp
      · simp only [List.length_cons, List.length_take]
        omega
    · exact ih hm (le_refl m) w h
  | case4 c rest k hmatch hk ih =>
    intro hm hc w hw
    rw [fmmAux, if_neg hmatch, if_pos hk] at hw
    rcases List.mem_cons.mp hw with h | h
    · subst h; simp; omega
    · exact ih hm (le_refl m) w h
  | case5 c rest k hmatch hk ih =>
    intro hm hc w hw
    rw [fmmAux, if_neg hmatch, if_neg hk] at hw
    exact ih hm (by omega) w hw

theorem rmmAux_word_len (d v : List (List Char)) (m : Nat) :
    ∀ (pre : List Char) (curLen : Nat), 1 ≤ m → curLen ≤ m →
      ∀ w ∈ rmmAux d v m pre curLen, 1 ≤ w.length ∧ w.length ≤ m := by
  intro pre curLen
  induction pre, curLen using rmmAux.induct d v m with
  | case1 x => intro hm hc w hw; simp [rmmAux] at hw
  | case2 c cs ih =>
    intro hm hc w hw
    rw [rmmAux] at hw
    rcases List.mem_append.mp hw with h | h
    · exact ih hm (le_refl m) w h
    · rcases List.mem_singleton.mp h with rfl; simp; omega
  | case3 c cs k hmatch ih =>
    intro hm hc w hw
    rw [rmmAux, if_pos hmatch] at hw
    rcases List.mem_append.mp hw with h | h
    · exact ih hm (le_refl m) w h
    · rcases List.mem_singleton.mp h with rfl
      simp only [List.length_drop, List.length_cons]
      omega
  | case4 c cs k hmatch hk ih =>
    intro hm hc w hw
    rw [rmmAux, if_neg hmatch, if_pos hk] at hw
    rcases List.mem_append.mp hw with h | h
    · exact ih hm (le_refl m) w h
    · rcases List.mem_singleton.mp h with rfl; simp; omega
  | case5 c cs k hmatch hk ih =>
    intro hm hc w hw
    rw [rmmAux, if_neg hmatch, if_neg hk] at hw
    refine ih hm ?_ w hw
    simp only [List.length_cons] at hc ⊢
    omega

theorem length_le_flatten_length (seg : List (List Char))
    (h : ∀ w ∈ seg, 1 ≤ w.length) : seg.length ≤ seg.flatten.length := by
  induction seg with
  | nil => simp
  | cons w ws ih =>
    simp only [List.flatten_cons, List.length_append, List.length_cons]
    have h1 := h w (List.mem_cons_self w ws)
    have h2 := ih (fun x hx => h x (List.mem_cons_of_mem _ hx))
    omega

theorem count_weight_foldl (ref : List Char) (seg : List (List Char)) (acc : Nat) :
    seg.foldl
      (fun weight word =>
        if 2 ≤ word.length then weight + countOccs word ref else weight) acc
      = acc + ((seg.filter (fun w => decide (2 ≤ w.length))).map
          (fun w => countOccs w ref)).sum := by
  induction seg generalizing acc with
  | nil => simp
  | cons w ws ih =>
    by_cases h : 2 ≤ w.length <;>
      simp [List.foldl_cons, List.filter_cons, h, ih] <;> omega

theorem firstDiffIdx_spec (a : List Char) :
    ∀ (b : List Char) (j : Nat), firstDiffIdx a b = some j →
      a[j]? ≠ b[j]? ∧ ∀ k, k < j → a[k]? = b[k]? := by
  induction a with
  | nil => intro b j h; simp [firstDiffIdx] at h
  | cons x as ih =>
    intro b j h
    cases b with
    | nil => simp [firstDiffIdx] at h
    | cons y bs =>
      rw [firstDiffIdx] at h
      by_cases hxy : x ≠ y
      · rw [if_pos hxy] at h
        obtain rfl : (0 : Nat) = j := by simpa using h
        refine ⟨by simpa using hxy, ?_⟩
        intro k hk; omega
      · rw [if_neg hxy] at h
        push_neg at hxy
        obtain ⟨j2, hj2, rfl⟩ : ∃ j2, firstDiffIdx as bs = some j2 ∧ j2 + 1 = j := by
          simpa using h
        obtain ⟨hne, hagree⟩ := ih bs j2 hj2
        refine ⟨by simpa using hne, ?_⟩
        intro k hk
        match k with
        | 0 => simpa using hxy
        | k2 + 1 => simpa using hagree k2 (by omega)

theorem alignmentErrorAux_isSome (vmap : Char → Char) (bc : List Char) :
    ∀ (ts : List (List Char)) (i : Nat),
      ((alignmentErrorAux vmap bc ts i).isSome = true ↔
        ∃ t ∈ ts, normalizedChars vmap t ≠ bc) := by
  intro ts
  induction ts with
  | nil => intro i; simp [alignmentErrorAux]
  | cons t ts ih =>
    intro i
    rw [alignmentErrorAux]
    by_cases h : normalizedChars vmap t ≠ bc
    · simp [h]
    · rw [if_neg h, ih]
      push_neg at h
      simp [h]

theorem alignmentErrorAux_some (vmap : Char → Char) (bc : List Char) :
    ∀ (ts : List (List Char)) (i i2 : Nat) (d : Option Nat),
      alignmentErrorAux vmap bc ts i = some (i2, d) →
      ∃ t ∈ ts, normalizedChars vmap t ≠ bc ∧
        d = firstDiffIdx bc (normalizedChars vmap t) := by
  intro ts
  induction ts with
  | nil => intro i i2 d h; simp [alignmentErrorAux] at h
  | cons t ts ih =>
    intro i i2 d h
    rw [alignmentErrorAux] at h
    by_cases hne : normalizedChars vmap t ≠ bc
    · rw [if_pos hne] at h
      have h2 : i = i2 ∧ firstDiffIdx bc (normalizedChars vmap t) = d := by
        simpa using h
      exact ⟨t, List.mem_cons_self t ts, hne, h2.2.symm⟩
    · rw [if_neg hne] at h
      obtain ⟨t2, ht2, h2⟩ := ih (i + 1) i2 d h
      exact ⟨t2, List.mem_cons_of_mem t ht2, h2⟩

/-!  The claims. -/

/-- C1: for every sentence, dictionary, variant table and
`max_word_length ≥ 1`, concatenating the words of either segmentation
reproduces the sentence exactly — no characters are dropped, reordered or
duplicated. -/
theorem claim_C1_round_trip (sentence : List Char)
    (dictionary_set variant_lst : List (List Char)) (max_word_length : Nat)
    (h : 1 ≤ max_word_length) :
    (fmm_segmentation sentence dictionary_set variant_lst max_word_length).flatten
        = sentence ∧
    (rmm_segmentation sentence dictionary_set variant_lst max_word_length).flatten
        = sentence :=
  ⟨fmmAux_flatten dictionary_set variant_lst max_word_length sentence max_word_length,
   rmmAux_flatten dictionary_set variant_lst max_word_length sentence max_word_length⟩

theorem claim_C1_round_trip_witness :
    1 ≤ 2 ∧
    ((fmm_segmentation ['a','b','c'] [['a','b']] [['A','a']] 2).flatten = ['a','b','c'] ∧
     (rmm_segmentation ['a','b','c'] [['a','b']] [['A','a']] 2).flatten = ['a','b','c']) :=
  ⟨by decide, claim_C1_round_trip ['a','b','c'] [['a','b']] [['A','a']] 2 (by decide)⟩

/-- C2: whenever some variant-substituted spelling of the current window
is in the dictionary, the original unsubstituted window text is accepted
as the next word; concretely, with variant groups linking a with A and b
with B and dictionary containing only "AB", the sentence "ab" segments as
the single word "ab" for every window bound of at least 2. -/
theorem claim_C2_variant_match :
    (∀ (sentence : List Char) (dictionary_set variant_lst : List (List Char))
        (max_word_length : Nat), sentence ≠ [] → 1 ≤ max_word_length →
        matchesDict dictionary_set variant_lst (sentence.take max_word_length) = true →
        fmm_segmentation sentence dictionary_set variant_lst max_word_length
          = sentence.take max_word_length
            :: fmm_segmentation (sentence.drop max_word_length)
                dictionary_set variant_lst max_word_length) ∧
    ∀ max_word_length : Nat, 2 ≤ max_word_length →
      fmm_segmentation ['a','b'] [['A','B']] [['A','a'], ['B','b']] max_word_length
        = [['a','b']] := by
  constructor
  · rintro (_ | ⟨c, rest⟩) d v m hs hm hmatch
    · exact absurd rfl hs
    · match m, hm with
      | k + 1, _ =>
        simp only [List.take_succ_cons] at hmatch
        simp only [fmm_segmentation, List.take_succ_cons, List.drop_succ_cons]
        rw [fmmAux, if_pos hmatch]
  · intro m hm
    obtain ⟨k, rfl⟩ : ∃ k, m = k + 2 := ⟨m - 2, by omega⟩
    simp only [fmm_segmentation]
    rw [fmmAux]
    simp only [List.take_succ_cons, List.take_nil, List.drop_succ_cons, List.drop_nil]
    rw [if_pos (by decide)]
    simp [fmmAux]

theorem claim_C2_variant_match_witness :
    2 ≤ 2 ∧
    fmm_segmentation ['a','b'] [['A','B']] [['A','a'], ['B','b']] 2 = [['a','b']] :=
  ⟨by decide, claim_C2_variant_match.2 2 (by decide)⟩

/-- C3: both segmenters are total functions of their inputs (the embedded
loops are well-founded), the empty sentence yields the empty
segmentation, and the cursor strictly progresses, so a sentence of `n`
characters yields at most `n` words. -/
theorem claim_C3_totality (dictionary_set variant_lst : List (List Char))
    (max_word_length : Nat) (h : 1 ≤ max_word_length) :
    fmm_segmentation [] dictionary_set variant_lst max_word_length = [] ∧
    rmm_segmentation [] dictionary_set variant_lst max_word_length = [] ∧
    ∀ sentence : List Char,
      (fmm_segmentation sentence dictionary_set variant_lst max_word_length).length
          ≤ sentence.length ∧
      (rmm_segmentation sentence dictionary_set variant_lst max_word_length).length
          ≤ sentence.length := by
  refine ⟨by simp [fmm_segmentation, fmmAux], by simp [rmm_segmentation, rmmAux], ?_⟩
  intro sentence
  constructor
  · have hle := length_le_flatten_length
      (fmm_segmentation sentence dictionary_set variant_lst max_word_length)
      (fun w hw =>
        (fmmAux_word_len dictionary_set variant_lst max_word_length sentence
          max_word_length h (le_refl _) w hw).1)
    simp only [fmm_segmentation] at hle ⊢
    rwa [fmmAux_flatten] at hle
  · have hle := length_le_flatten_length
      (rmm_segmentation sentence dictionary_set variant_lst max_word_length)
      (fun w hw =>
        (rmmAux_word_len dictionary_set variant_lst max_word_length sentence
          max_word_length h (le_refl _) w hw).1)
    simp only [rmm_segmentation] at hle ⊢
    rwa [rmmAux_flatten] at hle

theorem claim_C3_totality_witness :
    1 ≤ 3 ∧ fmm_segmentation [] [['a','b']] [['A','a']] 3 = [] :=
  ⟨by decide, (claim_C3_totality [['a','b']] [['A','a']] 3 (by decide)).1⟩

/-- C4: with forward result `["AB","C"]` and reverse result `["A","BC"]`
(equal word counts and equal maximum word lengths), and any document
string in which "BC" occurs twice and "AB" once, rule 4 picks the reverse
segmentation, whatever the corpus string is. -/
theorem claim_C4_rule4 (str_doc str_all : List Char)
    (hBC : countOccs ['B','C'] str_doc = 2)
    (hAB : countOccs ['A','B'] str_doc = 1) :
    bmm_tie_break [['A','B'], ['C']] [['A'], ['B','C']] str_doc str_all
      = [['A'], ['B','C']] := by
  have hf : count_weight [['A','B'], ['C']] str_doc = 1 := by
    simp [count_weight, hAB]
  have hr : count_weight [['A'], ['B','C']] str_doc = 2 := by
    simp [count_weight, hBC]
  unfold bmm_tie_break
  rw [if_neg (by decide), if_neg (by decide), if_neg (by decide), hf, hr,
    if_pos (by decide), if_neg (by decide)]

theorem claim_C4_rule4_witness :
    (countOccs ['B','C'] ['B','C','B','C','A','B'] = 2 ∧
     countOccs ['A','B'] ['B','C','B','C','A','B'] = 1) ∧
    bmm_tie_break [['A','B'], ['C']] [['A'], ['B','C']]
        ['B','C','B','C','A','B'] [] = [['A'], ['B','C']] :=
  ⟨⟨by simp [countOccs, leadsWith], by simp [countOccs, leadsWith]⟩,
   claim_C4_rule4 ['B','C','B','C','A','B'] []
     (by simp [countOccs, leadsWith]) (by simp [countOccs, leadsWith])⟩

/-- C5: when the two segmentations tie on word count, maximum word length
and both frequency weights, the forward segmentation is returned. -/
theorem claim_C5_fallback_forward (f_res r_res : List (List Char))
    (str_doc str_all : List Char)
    (hlen : f_res.length = r_res.length)
    (hmax : maxWordLen f_res = maxWordLen r_res)
    (hdoc : count_weight f_res str_doc = count_weight r_res str_doc)
    (hall : count_weight f_res str_all = count_weight r_res str_all) :
    bmm_tie_break f_res r_res str_doc str_all = f_res := by
  unfold bmm_tie_break
  split_ifs <;> first | rfl | (exfalso; omega)

theorem claim_C5_fallback_forward_witness :
    ([['A','B'], ['C']].length = [['A'], ['B','C']].length ∧
     maxWordLen [['A','B'], ['C']] = maxWordLen [['A'], ['B','C']] ∧
     count_weight [['A','B'], ['C']] [] = count_weight [['A'], ['B','C']] [] ∧
     [['A','B'], ['C']] ≠ [['A'], ['B','C']]) ∧
    bmm_tie_break [['A','B'], ['C']] [['A'], ['B','C']] [] [] = [['A','B'], ['C']] :=
  ⟨⟨by decide, by decide, by simp [count_weight, countOccs], by decide⟩,
   claim_C5_fallback_forward [['A','B'], ['C']] [['A'], ['B','C']] [] []
     (by decide) (by decide) (by simp [count_weight, countOccs])
     (by simp [count_weight, countOccs])⟩

/-- C6: count_weight sums, over exactly the words of length at least 2 of
the segmentation, the non-overlapping occurrence count of the word in the
reference string (length-1 words contribute nothing); in particular the
word "aa" weighs 2 against "aaaa" and 1 against "aaa". -/
theorem claim_C6_count_weight :
    (∀ (seg : List (List Char)) (ref : List Char),
        count_weight seg ref
          = ((seg.filter (fun w => decide (2 ≤ w.length))).map
              (fun w => countOccs w ref)).sum) ∧
    count_weight [['a','a']] ['a','a','a','a'] = 2 ∧
    count_weight [['a','a']] ['a','a','a'] = 1 := by
  refine ⟨fun seg ref => ?_, ?_, ?_⟩
  · simpa [count_weight] using count_weight_foldl ref seg 0
  · simp [count_weight, countOccs, leadsWith]
  · simp [count_weight, countOccs, leadsWith]

/-- C7: every emitted word has length at least 1 and at most
`max_word_length`, for both scan directions. -/
theorem claim_C7_window_bound (sentence : List Char)
    (dictionary_set variant_lst : List (List Char)) (max_word_length : Nat)
    (h : 1 ≤ max_word_length) :
    (∀ w ∈ fmm_segmentation sentence dictionary_set variant_lst max_word_length,
        1 ≤ w.length ∧ w.length ≤ max_word_length) ∧
    (∀ w ∈ rmm_segmentation sentence dictionary_set variant_lst max_word_length,
        1 ≤ w.length ∧ w.length ≤ max_word_length) :=
  ⟨fmmAux_word_len dictionary_set variant_lst max_word_length sentence
      max_word_length h (le_refl _),
   rmmAux_word_len dictionary_set variant_lst max_word_length sentence
      max_word_length h (le_refl _)⟩

theorem claim_C7_window_bound_witness :
    1 ≤ 2 ∧
    ∀ w ∈ fmm_segmentation ['a','b','c'] [['a','b']] [] 2,
      1 ≤ w.length ∧ w.length ≤ 2 :=
  ⟨by decide, (claim_C7_window_bound ['a','b','c'] [['a','b']] [] 2 (by decide)).1⟩

/-- C8 counterexample: the variant-dictionary loader of the segmentation
module (`load_variant_dict` in `01_FMM_segmentation.py`) does not return
successfully on an absent or empty variant file; it raises in both cases
(`open` raises on an absent file, `readlines()[0]` raises on an empty
one), modelled here by `none`. -/
theorem claim_C8_counterexample :
    load_variant_dict_fmm none = none ∧ load_variant_dict_fmm (some []) = none :=
  ⟨rfl, rfl⟩

/-- C8 (amended): only the adjudication module degrades to a no-variants
table on a missing variant source — its loader returns the empty group
list for an absent file (any content) and for an empty file — while the
segmentation module loader raises on an absent or empty file, succeeding
only when the file has a first line, which it splits on the pipe
character. -/
theorem claim_C8_amended_loaders :
    (∀ content, load_variant_dict_adj false content = []) ∧
    load_variant_dict_adj true [] = [] ∧
    load_variant_dict_fmm none = none ∧
    load_variant_dict_fmm (some []) = none ∧
    ∀ (line : List Char) (rest : List (List Char)),
      load_variant_dict_fmm (some (line :: rest)) = some (splitOnChar '|' line) :=
  ⟨fun _ => rfl, rfl, rfl, rfl, fun _ _ => rfl⟩

/-- C9 counterexample: with variant file content "Aa" and annotator texts
"aA" and "AA", the whitespace-stripped raw character sequences are not
character-for-character identical, yet the pipeline raises no alignment
error, because the comparison happens after variant normalization (here
the letter a is mapped to the more frequent A). -/
theorem claim_C9_counterexample :
    adjAlignmentError [['a','A'], ['A','A']] true ['A','a'] = none ∧
    stripWsAll ['a','A'] ≠ stripWsAll ['A','A'] :=
  ⟨rfl, by decide⟩

/-- C9 (amended): the alignment check raises a fatal error if and only if
some annotator text, after removing segmentation whitespace AND applying
variant normalization, is not character-for-character identical to the
base text processed the same way; a mismatch is never silently resolved,
and when an error is raised its reported character index is the first
position where the two normalized sequences differ (or the Python value
-1, modelled as `none`, when one sequence is a proper prefix of the
other). -/
theorem claim_C9_amended_alignment (vmap : Char → Char) (base : List Char)
    (rest : List (List Char)) :
    ((alignmentError vmap (base :: rest)).isSome = true ↔
      ∃ t ∈ rest, normalizedChars vmap t ≠ normalizedChars vmap base) ∧
    ∀ (i : Nat) (d : Option Nat),
      alignmentError vmap (base :: rest) = some (i, d) →
      ∃ t ∈ rest, normalizedChars vmap t ≠ normalizedChars vmap base ∧
        d = firstDiffIdx (normalizedChars vmap base) (normalizedChars vmap t) ∧
        ∀ j, d = some j →
          (normalizedChars vmap base)[j]? ≠ (normalizedChars vmap t)[j]? ∧
          ∀ k, k < j →
            (normalizedChars vmap base)[k]? = (normalizedChars vmap t)[k]? := by
  constructor
  · simpa [alignmentError] using
      alignmentErrorAux_isSome vmap (normalizedChars vmap base) rest 1
  · intro i d h
    simp only [alignmentError] at h
    obtain ⟨t, ht, hne, hd⟩ :=
      alignmentErrorAux_some vmap (normalizedChars vmap base) rest 1 i d h
    refine ⟨t, ht, hne, hd, ?_⟩
    intro j hj
    exact firstDiffIdx_spec (normalizedChars vmap base) (normalizedChars vmap t) j
      (hd ▸ hj)

theorem claim_C9_amended_alignment_witness :
    (alignmentError (fun c => c) (['a','b'] :: [['a','x']])).isSome = true :=
  (claim_C9_amended_alignment (fun c => c) ['a','b'] [['a','x']]).1.mpr
    ⟨['a','x'], by simp, by decide⟩

/-- C10: the tie-breaker always returns one of its two input
segmentations unchanged; it never builds a new or mixed one. -/
theorem claim_C10_returns_an_input (f_res r_res : List (List Char))
    (str_doc str_all : List Char) :
    bmm_tie_break f_res r_res str_doc str_all = f_res ∨
    bmm_tie_break f_res r_res str_doc str_all = r_res := by
  unfold bmm_tie_break
  split_ifs <;> simp

end Dadi
